import Mathlib

/-!
Verification of the `Port` signaling/mailbox primitive from
`src/zircon-object/src/signal/port.rs`.

The port's own code (struct `Port`, `Port::new`, `Port::push`,
`Port::wait_async`, `Port::len`) is embedded below.  The signal machinery
it sits on (`Signal`, `KObjectBase::signal_set` / `signal_clear` /
`wait_signal_async`) is not under `src/`; those parts are modelled from
the spec (section 4.2: a signal word is a mutable bitmask; `signal_set`
ORs bits in, `signal_clear` ANDs bits out, `wait_signal_async(mask)`
suspends until any bit of `mask` is set, resolving immediately when one
already is).

Two levels of embedding are used:

* a sequential (atomic-operation) model: `PortState` with `Port.new`,
  `Port.push`, `Port.wait_async` (the state change performed by a
  completed call) and `Port.len` as pure state transformers;
* an interleaving model (`Sys`, `Action`, `stepFn`, `run`) whose atomic
  actions are exactly the atomic sections of the source: `Action.append`
  is the locked `inner.queue.push(packet)` of `Port::push`,
  `Action.setReadable` is the `self.base.signal_set(Signal::READABLE)`
  that `Port::push` performs after dropping the lock,
  `Action.startWait` is the consumer entering
  `wait_signal_async(Signal::READABLE)`, `Action.commitDrain` is the
  post-wake locked section of `Port::wait_async` (clear READABLE, take
  the queue) and `Action.cancelWait` is dropping the `wait_async` future
  before it completes.
-/

namespace PortSpec

/-- Modelled from the spec: a signal word is a mutable bitmask
("`signal_set(mask)` ORs bits into current state",
"`signal_clear(mask)` ANDs bits out").  A bitmask is embedded as the
finite set of its set bit indices; the `Signal` type itself is defined
outside `src/`. -/
abbrev Signal := Finset Nat

/-- Modelled from the spec: the READABLE bit of the signal vocabulary
(one distinguished bit index). -/
def Signal.READABLE : Signal := {0}

/-- Modelled from the spec: a second, distinct signal bit (used by the
source's test with `Signal::WRITABLE`). -/
def Signal.WRITABLE : Signal := {1}

/-- Modelled from the spec: `signal_set(mask)` ORs bits into the current
state. -/
def Signal.set (s m : Signal) : Signal := s ∪ m

/-- Modelled from the spec: `signal_clear(mask)` ANDs bits out of the
current state. -/
def Signal.clear (s m : Signal) : Signal := s \ m

/-- Modelled from the spec: whether any bit of `m` is set in `s`; this is
the resolution condition of `wait_signal_async(m)`. -/
def Signal.satisfies (s m : Signal) : Bool := decide (s ∩ m ≠ ∅)

/-- Modelled from the spec: `status: result code` — the outcome carried
by a packet (`ZxError` is defined outside `src/`; only `OK` and the
existence of other codes matter to the port). -/
inductive ZxError where
  | OK : ZxError
  | err : Nat → ZxError
deriving DecidableEq

/-- Payload of a port packet, from `enum PortPacketPayload`:
`Signal(Signal)` for bridge-generated packets, `User([u8; 32])` for
application-pushed data (a 32-byte block is embedded as a function from
byte index to byte value).  The Rust enum is `#[non_exhaustive]`. -/
inductive PortPacketPayload where
  | Sig : Signal → PortPacketPayload
  | User : (Fin 32 → Fin 256) → PortPacketPayload
deriving DecidableEq

/-- A port packet, from `struct PortPacket`: a caller-supplied 64-bit
correlation `key` (the port never computes on it, so it is embedded as a
natural number), a `status` code and a payload (`data`). -/
structure PortPacket where
  key : Nat
  status : ZxError
  data : PortPacketPayload
deriving DecidableEq

/-- The state of one port: the signal word of its `KObjectBase` (only
the READABLE bit is ever touched by the port's own code) and the packet
queue of `PortInner`. -/
structure PortState where
  signal : Signal
  queue : List PortPacket
deriving DecidableEq

/-- `Port::new`: a fresh port has a default (empty) `KObjectBase` signal
word and a default (empty) queue. -/
def Port.new : PortState := { signal := ∅, queue := [] }

/-- `Port::push` as one atomic operation (the locked
`inner.queue.push(packet)` followed by
`self.base.signal_set(Signal::READABLE)`): append the packet at the
tail, set READABLE unconditionally. -/
def Port.push (s : PortState) (p : PortPacket) : PortState :=
  { signal := Signal.set s.signal Signal.READABLE, queue := s.queue ++ [p] }

/-- The state change and return value of a completed `Port::wait_async`
call after its `wait_signal_async(Signal::READABLE)` has resolved: under
the lock, clear READABLE and take the whole queue
(`core::mem::take(&mut inner.queue)`), returning the previous
contents. -/
def Port.wait_async (s : PortState) : List PortPacket × PortState :=
  (s.queue, { signal := Signal.clear s.signal Signal.READABLE, queue := [] })

/-- `Port::len`: lock, read `queue.len()`, unlock.  Embedded as a state
transformer returning the length together with the (unchanged) state. -/
def Port.len (s : PortState) : Nat × PortState := (s.queue.length, s)

/-- Iterated `Port::push` of a list of packets, in order. -/
def Port.pushAll (s : PortState) (ps : List PortPacket) : PortState :=
  ps.foldl Port.push s

/-- Port states reachable by completed, non-overlapping operations:
`Port::new`, then any sequence of completed `Port::push` and completed
`Port::wait_async` calls. -/
inductive Port.Reachable : PortState → Prop where
  | new : Port.Reachable Port.new
  | push : ∀ {s : PortState} (p : PortPacket), Port.Reachable s →
      Port.Reachable (Port.push s p)
  | drain : ∀ {s : PortState}, Port.Reachable s →
      Port.Reachable (Port.wait_async s).2

/-- A sample application packet (used by concrete witnesses). -/
def pkt1 : PortPacket :=
  { key := 5, status := ZxError.OK, data := PortPacketPayload.User (fun _ => 0) }

/-- A second sample packet, a bridge-style signal packet (used by
concrete witnesses). -/
def pkt2 : PortPacket :=
  { key := 6, status := ZxError.OK, data := PortPacketPayload.Sig Signal.WRITABLE }

theorem pushAll_queue (ps : List PortPacket) :
    ∀ s : PortState, (Port.pushAll s ps).queue = s.queue ++ ps := by
  induction ps with
  | nil => intro s; simp [Port.pushAll]
  | cons p ps ih =>
      intro s
      simp only [Port.pushAll, List.foldl_cons] at *
      rw [ih]
      simp [Port.push]

theorem satisfies_set_readable (s : Signal) :
    Signal.satisfies (Signal.set s Signal.READABLE) Signal.READABLE = true := by
  have h0 : (0 : Nat) ∈ Signal.set s Signal.READABLE ∩ Signal.READABLE := by
    simp [Signal.set, Signal.READABLE]
  simp only [Signal.satisfies, decide_eq_true_eq]
  exact Finset.ne_empty_of_mem h0

theorem satisfies_clear_readable (s : Signal) :
    Signal.satisfies (Signal.clear s Signal.READABLE) Signal.READABLE = false := by
  simp [Signal.satisfies, Signal.clear, Finset.sdiff_inter_self]

/-! ## Interleaving model

One consumer task and any number of producer tasks.  Each action is one
of the atomic sections of the source (see the header comment).  The
consumer is in one of three phases: `idle` (no `wait_async` call in
flight), `waiting` (suspended inside `wait_signal_async`, READABLE not
observed set yet) or `woken` (the wait future has resolved but the
locked clear-and-take section has not run yet). -/

/-- Phase of the single consumer's `wait_async` call. -/
inductive CPhase where
  | idle : CPhase
  | waiting : CPhase
  | woken : CPhase
deriving DecidableEq

/-- Atomic actions of the interleaving model.  `append p` and
`setReadable` are the two halves of one `Port::push` call (the lock is
dropped between them in the source); `startWait`, `commitDrain` and
`cancelWait` belong to the consumer's `Port::wait_async` call. -/
inductive Action where
  | append : PortPacket → Action
  | setReadable : Action
  | startWait : Action
  | commitDrain : Action
  | cancelWait : Action
deriving DecidableEq

/-- Global state of the interleaving model: the port, the number of
`Port::push` calls that have appended but not yet run their
`signal_set` (`pending`), the consumer phase, and the batches returned
by completed `wait_async` calls so far, in order. -/
structure Sys where
  port : PortState
  pending : Nat
  phase : CPhase
  drained : List (List PortPacket)
deriving DecidableEq

/-- Initial system state: a fresh `Port::new`, no push in flight, the
consumer idle, nothing drained. -/
def Sys.init : Sys :=
  { port := Port.new, pending := 0, phase := CPhase.idle, drained := [] }

/-- One atomic step.  `none` means the action is not enabled in this
state (e.g. a `signal_set` with no push in flight, or the drain
continuation running before its wait has resolved). -/
def stepFn (s : Sys) : Action → Option Sys
  | Action.append p =>
      some { s with
        port := { s.port with queue := s.port.queue ++ [p] },
        pending := s.pending + 1 }
  | Action.setReadable =>
      if s.pending = 0 then none
      else
        some { s with
          port := { s.port with
            signal := Signal.set s.port.signal Signal.READABLE },
          pending := s.pending - 1,
          phase := if s.phase = CPhase.waiting then CPhase.woken else s.phase }
  | Action.startWait =>
      if s.phase = CPhase.idle then
        some { s with
          phase :=
            if Signal.satisfies s.port.signal Signal.READABLE then CPhase.woken
            else CPhase.waiting }
      else none
  | Action.commitDrain =>
      if s.phase = CPhase.woken then
        some { s with
          port := (Port.wait_async s.port).2,
          phase := CPhase.idle,
          drained := s.drained ++ [(Port.wait_async s.port).1] }
      else none
  | Action.cancelWait =>
      if s.phase = CPhase.idle then none
      else some { s with phase := CPhase.idle }

/-- Run a list of actions from a state; `none` when some action along
the way is not enabled (the list is not a legal interleaving). -/
def run (s : Sys) : List Action → Option Sys
  | [] => some s
  | a :: t =>
      match stepFn s a with
      | none => none
      | some s1 => run s1 t

/-- The packets appended by a list of actions, in order. -/
def appends (t : List Action) : List PortPacket :=
  t.filterMap fun a =>
    match a with
    | Action.append p => some p
    | _ => none

theorem run_append (t1 : List Action) :
    ∀ (t2 : List Action) (s : Sys),
      run s (t1 ++ t2) =
        match run s t1 with
        | none => none
        | some u => run u t2 := by
  induction t1 with
  | nil => intro t2 s; rfl
  | cons a t ih =>
      intro t2 s
      simp only [List.cons_append, run]
      cases stepFn s a with
      | none => rfl
      | some s1 => exact ih t2 s1

theorem appends_cons (a : Action) (t : List Action) :
    appends (a :: t) =
      (match a with
       | Action.append p => p :: appends t
       | _ => appends t) := by
  cases a <;> simp [appends]

theorem run_conservation (t : List Action) :
    ∀ s u : Sys, run s t = some u →
      u.drained.flatten ++ u.port.queue =
        s.drained.flatten ++ (s.port.queue ++ appends t) := by
  induction t with
  | nil =>
      intro s u h
      cases h
      simp [appends]
  | cons a t ih =>
      intro s u h
      cases a with
      | append p =>
          simp only [run, stepFn] at h
          have hu := ih _ u h
          simp only [appends_cons] at *
          simp only [hu]
          simp
      | setReadable =>
          simp only [run, stepFn] at h
          by_cases hp : s.pending = 0
          · simp [hp] at h
          · simp only [hp, if_false, ite_false] at h
            have hu := ih _ u h
            simp only [appends_cons] at *
            simpa using hu
      | startWait =>
          simp only [run, stepFn] at h
          by_cases hp : s.phase = CPhase.idle
          · simp only [hp, if_true, ite_true] at h
            have hu := ih _ u h
            simp only [appends_cons] at *
            simpa using hu
          · simp [hp] at h
      | commitDrain =>
          simp only [run, stepFn] at h
          by_cases hp : s.phase = CPhase.woken
          · simp only [hp, if_true, ite_true] at h
            have hu := ih _ u h
            simp only [appends_cons] at *
            simp only [hu, Port.wait_async]
            simp
          · simp [hp] at h
      | cancelWait =>
          simp only [run, stepFn] at h
          by_cases hp : s.phase = CPhase.idle
          · simp [hp] at h
          · simp only [hp, if_false, ite_false] at h
            have hu := ih _ u h
            simp only [appends_cons] at *
            simpa using hu

theorem run_no_commit (t : List Action) :
    ∀ s u : Sys, (∀ a ∈ t, a ≠ Action.commitDrain) → run s t = some u →
      u.port.queue = s.port.queue ++ appends t ∧ u.drained = s.drained := by
  induction t with
  | nil =>
      intro s u _ h
      cases h
      simp [appends]
  | cons a t ih =>
      intro s u hnc h
      have hnc' : ∀ a ∈ t, a ≠ Action.commitDrain := fun a ha =>
        hnc a (List.mem_cons_of_mem _ ha)
      cases a with
      | append p =>
          simp only [run, stepFn] at h
          have hu := ih _ u hnc' h
          simp only [appends_cons] at *
          simpa using hu
      | setReadable =>
          simp only [run, stepFn] at h
          by_cases hp : s.pending = 0
          · simp [hp] at h
          · simp only [hp, if_false, ite_false] at h
            have hu := ih _ u hnc' h
            simp only [appends_cons] at *
            simpa using hu
      | startWait =>
          simp only [run, stepFn] at h
          by_cases hp : s.phase = CPhase.idle
          · simp only [hp, if_true, ite_true] at h
            have hu := ih _ u hnc' h
            simp only [appends_cons] at *
            simpa using hu
          · simp [hp] at h
      | commitDrain =>
          exact absurd rfl (hnc Action.commitDrain (List.mem_cons_self _ _))
      | cancelWait =>
          simp only [run, stepFn] at h
          by_cases hp : s.phase = CPhase.idle
          · simp [hp] at h
          · simp only [hp, if_false, ite_false] at h
            have hu := ih _ u hnc' h
            simp only [appends_cons] at *
            simpa using hu


/-! ## Concrete traces used by counterexamples and witnesses -/

/-- Two complete push/drain rounds: push `pkt1`, drain it, push `pkt2`,
drain it. -/
def traceA : List Action :=
  [Action.append pkt1, Action.setReadable, Action.startWait, Action.commitDrain,
   Action.append pkt2, Action.setReadable, Action.startWait, Action.commitDrain]

/-- Final state of `traceA`. -/
def sysA : Sys :=
  { port := { signal := ∅, queue := [] }, pending := 0, phase := CPhase.idle,
    drained := [[pkt1], [pkt2]] }

/-- One complete push of `pkt1` followed by the consumer's wait
resolving; a `commitDrain` is appended separately by the C2 witness. -/
def traceB1 : List Action :=
  [Action.append pkt1, Action.setReadable, Action.startWait]

/-- Final state of `traceB1 ++ [commitDrain]`. -/
def sysB : Sys :=
  { port := { signal := ∅, queue := [] }, pending := 0, phase := CPhase.idle,
    drained := [[pkt1]] }

/-- A legal interleaving of the source: push(`pkt1`) completes; a second
push(`pkt2`) performs its locked append but is preempted before its
`signal_set`; the consumer's `wait_async` resolves immediately (READABLE
is still set from the first push), drains `[pkt1, pkt2]` and clears
READABLE; the second push's delayed `signal_set` then runs, leaving
READABLE set on an empty queue; a second `wait_async` call therefore
resolves immediately and takes an empty queue. -/
def traceC1 : List Action :=
  [Action.append pkt1, Action.setReadable, Action.append pkt2, Action.startWait,
   Action.commitDrain, Action.setReadable, Action.startWait, Action.commitDrain]

/-- Prefix of `traceC1` stopping after the delayed `signal_set`: every
operation started in it has completed (both pushes, one drain), yet
READABLE is set while the queue is empty. -/
def traceC3 : List Action :=
  [Action.append pkt1, Action.setReadable, Action.append pkt2, Action.startWait,
   Action.commitDrain, Action.setReadable]

/-! ## Claim theorems -/

/-- C1 (code bug): `wait_async` can return an empty batch.  On the legal
interleaving `traceC1` (two `Port::push` calls and two `wait_async`
calls by one consumer), the second completed `wait_async` call returns
`[]`: the second push's `signal_set(READABLE)` runs after the first
drain has already taken its packet (the source drops the queue lock
before `signal_set`, and `wait_async` has no re-check loop), so the
second wait resolves on an empty queue.  This contradicts the claim that
every returned batch has length at least 1. -/
theorem c1_wait_async_empty_batch :
    (run Sys.init traceC1).map Sys.drained = some [[pkt1, pkt2], []] := by
  decide

/-- C2: with a single `wait_async` call (one `commitDrain`, the only one
in the trace) interleaved with any number of concurrent `Port::push`
calls, the batch returned by that call consists of exactly the packets
whose locked append executed strictly before the drain's locked
take-section, in append order — the execution is equivalent to the
serial order that runs those pushes, then the drain, then the rest. -/
theorem c2_single_drain_linearizable (t1 t2 : List Action) (u : Sys)
    (h1 : ∀ a ∈ t1, a ≠ Action.commitDrain)
    (h2 : ∀ a ∈ t2, a ≠ Action.commitDrain)
    (h : run Sys.init (t1 ++ Action.commitDrain :: t2) = some u) :
    u.drained = [appends t1] := by
  rw [run_append] at h
  cases hr1 : run Sys.init t1 with
  | none => rw [hr1] at h; cases h
  | some s1 =>
      rw [hr1] at h
      have hs1 := run_no_commit t1 Sys.init s1 h1 hr1
      simp only [run, stepFn] at h
      by_cases hw : s1.phase = CPhase.woken
      · simp only [hw, if_true, ite_true] at h
        have hu := run_no_commit t2 _ u h2 h
        simp [hu.2, Port.wait_async, hs1.1, hs1.2, Sys.init, Port.new]
      · simp [hw] at h

/-- Witness for C2 at a concrete trace: one push of `pkt1` completes,
the wait resolves, and the single drain returns exactly `[pkt1]`. -/
theorem c2_single_drain_linearizable_witness :
    run Sys.init (traceB1 ++ Action.commitDrain :: []) = some sysB ∧
      sysB.drained = [appends traceB1] :=
  ⟨by decide,
   c2_single_drain_linearizable traceB1 [] sysB (by decide) (by decide) (by decide)⟩

/-- C3 (counterexample): a reachable state in which every started
operation has completed (consumer idle, no push in flight) but READABLE
is set while the queue is empty — the readable bit is not equivalent to
queue non-emptiness for every reachable state.  The state is reached by
`traceC3`: a drain runs between the second push's locked append and its
`signal_set`. -/
theorem c3_readable_queue_disagree :
    (run Sys.init traceC3).map
        (fun u =>
          (u.phase, u.pending, Signal.satisfies u.port.signal Signal.READABLE,
            u.port.queue)) =
      some (CPhase.idle, 0, true, []) := by
  decide

/-- C3 (amended): in sequential executions — each `Port::push` and each
`Port::wait_async` runs to completion without interleaving — the
READABLE bit is set if and only if the queue is non-empty, at every
operation boundary. -/
theorem c3_seq_readable_iff_nonempty (s : PortState) (h : Port.Reachable s) :
    (Signal.satisfies s.signal Signal.READABLE = true) ↔ s.queue ≠ [] := by
  induction h with
  | new => simp [Port.new, Signal.satisfies]
  | push p _ ih => simp [Port.push, satisfies_set_readable]
  | drain _ ih => simp [Port.wait_async, satisfies_clear_readable]

/-- Witness for the amended C3 at the concrete reachable state reached
by one push on a fresh port. -/
theorem c3_seq_readable_iff_nonempty_witness :
    (Signal.satisfies (Port.push Port.new pkt1).signal Signal.READABLE = true) ↔
      (Port.push Port.new pkt1).queue ≠ [] :=
  c3_seq_readable_iff_nonempty (Port.push Port.new pkt1)
    (Port.Reachable.push pkt1 Port.Reachable.new)

/-- C4: pushing the packets `ps` (at least one) onto a port with an
empty queue, with no intervening drain, and then completing one
`wait_async` call returns exactly `ps` — same packets (key, status and
payload unchanged), in push order. -/
theorem c4_fifo_drain (s : PortState) (ps : List PortPacket)
    (h0 : s.queue = []) (_hn : ps ≠ []) :
    (Port.wait_async (Port.pushAll s ps)).1 = ps := by
  simp [Port.wait_async, pushAll_queue, h0]

/-- Witness for C4: two packets pushed on a fresh port are returned as
`[pkt1, pkt2]`. -/
theorem c4_fifo_drain_witness :
    Port.new.queue = [] ∧ ([pkt1, pkt2] : List PortPacket) ≠ [] ∧
      (Port.wait_async (Port.pushAll Port.new [pkt1, pkt2])).1 = [pkt1, pkt2] :=
  ⟨rfl, by decide, c4_fifo_drain Port.new [pkt1, pkt2] rfl (by decide)⟩

/-- C5: conservation across every legal interleaving — the
concatenation of all batches returned by completed `wait_async` calls,
followed by the packets still queued, is exactly the list of pushed
packets in append order.  Hence no pushed packet is duplicated across
drains, and every pushed packet is delivered in exactly one drain once
it is drained at all (in a trace whose final queue is empty, the batches
partition the pushed packets exactly). -/
theorem c5_no_loss_no_duplication (t : List Action) (u : Sys)
    (h : run Sys.init t = some u) :
    u.drained.flatten ++ u.port.queue = appends t := by
  have hc := run_conservation t Sys.init u h
  simpa [Sys.init, Port.new] using hc

/-- Witness for C5 on `traceA` (two pushes, two drains): the two batches
`[pkt1]` and `[pkt2]` together with the empty residual queue are exactly
the two pushed packets. -/
theorem c5_no_loss_no_duplication_witness :
    run Sys.init traceA = some sysA ∧
      sysA.drained.flatten ++ sysA.port.queue = appends traceA :=
  ⟨by decide, c5_no_loss_no_duplication traceA sysA (by decide)⟩

/-! ## Cancellation machinery (claim C6)

The `wait_async` future mutates no port state before its final locked
section: dropping it while pending is modelled by `cancelWait`, which
only resets the consumer phase. -/

/-- Replace the consumer phase of a system state. -/
def withPhase (s : Sys) (φ : CPhase) : Sys := { s with phase := φ }

/-- Producer actions: the two halves of a `Port::push` call. -/
def IsProducer : Action → Prop
  | Action.append _ => True
  | Action.setReadable => True
  | _ => False

instance (a : Action) : Decidable (IsProducer a) :=
  match a with
  | Action.append _ => isTrue trivial
  | Action.setReadable => isTrue trivial
  | Action.startWait => isFalse fun h => h
  | Action.commitDrain => isFalse fun h => h
  | Action.cancelWait => isFalse fun h => h

/-- How a producer action moves the phase of an in-flight wait: a
`signal_set(READABLE)` wakes a waiting consumer, everything else leaves
the phase alone. -/
def prodPhase (φ : CPhase) : Action → CPhase
  | Action.setReadable => if φ = CPhase.waiting then CPhase.woken else φ
  | _ => φ

/-- Phase of an in-flight wait after a list of producer actions. -/
def prodRunPhase (φ : CPhase) (t : List Action) : CPhase :=
  t.foldl prodPhase φ

theorem stepFn_producer_withPhase (a : Action) (ha : IsProducer a) (s : Sys)
    (φ : CPhase) :
    stepFn (withPhase s φ) a =
      (stepFn s a).map fun v => withPhase v (prodPhase φ a) := by
  cases a with
  | append p => rfl
  | setReadable =>
      by_cases hp : s.pending = 0 <;>
        simp [stepFn, withPhase, prodPhase, hp]
  | startWait => exact absurd ha id
  | commitDrain => exact absurd ha id
  | cancelWait => exact absurd ha id

theorem run_producer_withPhase (t : List Action) :
    ∀ (s : Sys) (φ : CPhase), (∀ a ∈ t, IsProducer a) →
      run (withPhase s φ) t =
        (run s t).map fun v => withPhase v (prodRunPhase φ t) := by
  induction t with
  | nil => intro s φ _; rfl
  | cons a t ih =>
      intro s φ hp
      have ha : IsProducer a := hp a (List.mem_cons_self _ _)
      have hp' : ∀ b ∈ t, IsProducer b := fun b hb =>
        hp b (List.mem_cons_of_mem _ hb)
      simp only [run, stepFn_producer_withPhase a ha s φ]
      cases hs : stepFn s a with
      | none => rfl
      | some v =>
          simp only [Option.map]
          exact ih v (prodPhase φ a) hp'

theorem run_producer_idle (t : List Action) :
    ∀ s u : Sys, (∀ a ∈ t, IsProducer a) → s.phase = CPhase.idle →
      run s t = some u → u.phase = CPhase.idle := by
  induction t with
  | nil =>
      intro s u _ hφ h
      cases h
      exact hφ
  | cons a t ih =>
      intro s u hp hφ h
      have hp' : ∀ b ∈ t, IsProducer b := fun b hb =>
        hp b (List.mem_cons_of_mem _ hb)
      cases a with
      | append p =>
          simp only [run, stepFn] at h
          refine ih _ u hp' ?_ h
          exact hφ
      | setReadable =>
          simp only [run, stepFn] at h
          by_cases hn : s.pending = 0
          · simp [hn] at h
          · simp only [hn, if_false, ite_false] at h
            refine ih _ u hp' ?_ h
            simp [hφ]
      | startWait => exact absurd (hp _ (List.mem_cons_self _ _)) id
      | commitDrain => exact absurd (hp _ (List.mem_cons_self _ _)) id
      | cancelWait => exact absurd (hp _ (List.mem_cons_self _ _)) id

theorem prodPhase_ne_idle (φ : CPhase) (a : Action) (h : φ ≠ CPhase.idle) :
    prodPhase φ a ≠ CPhase.idle := by
  cases a with
  | setReadable =>
      by_cases hw : φ = CPhase.waiting
      · simp [prodPhase, hw]
      · simpa [prodPhase, hw] using h
  | append p => exact h
  | startWait => exact h
  | commitDrain => exact h
  | cancelWait => exact h

theorem prodRunPhase_ne_idle (t : List Action) :
    ∀ φ : CPhase, φ ≠ CPhase.idle → prodRunPhase φ t ≠ CPhase.idle := by
  induction t with
  | nil => intro φ h; exact h
  | cons a t ih => intro φ h; exact ih _ (prodPhase_ne_idle φ a h)

theorem withPhase_self (s : Sys) (h : s.phase = CPhase.idle) :
    withPhase s CPhase.idle = s := by
  cases s with
  | mk port pending phase drained =>
      simp only [withPhase]
      simp at h
      rw [h]

theorem run_start_cancel (s1 : Sys) (φ0 : CPhase) (t2 t3 : List Action)
    (hφ : φ0 ≠ CPhase.idle) (hp : ∀ a ∈ t2, IsProducer a)
    (hidle : s1.phase = CPhase.idle) :
    run (withPhase s1 φ0) (t2 ++ Action.cancelWait :: t3) =
      run s1 (t2 ++ t3) := by
  rw [run_append, run_append, run_producer_withPhase t2 s1 φ0 hp]
  cases hr2 : run s1 t2 with
  | none => rfl
  | some v =>
      have hvphase : v.phase = CPhase.idle := run_producer_idle t2 s1 v hp hidle hr2
      have hne : prodRunPhase φ0 t2 ≠ CPhase.idle := prodRunPhase_ne_idle t2 φ0 hφ
      simp only [Option.map]
      have hcancel : stepFn (withPhase v (prodRunPhase φ0 t2)) Action.cancelWait =
          some v := by
        simp only [stepFn, withPhase, hne, if_false, ite_false]
        rw [show ({ v with phase := CPhase.idle } : Sys) = withPhase v CPhase.idle
              from rfl,
            withPhase_self v hvphase]
      simp only [run, hcancel]

/-- C6: dropping a pending `wait_async` future (cancellation) has no
effect.  For any legal run reaching a consumer-idle state `s1`: starting
a wait there, letting any producer actions `t2` run while it is pending,
and then dropping the future before its locked clear-and-take section
executes, yields exactly the same result as if the wait had never been
started — the two runs agree on every continuation `t3` (in particular
on a fresh `wait_async` performed in `t3`), so no packets are consumed
and neither the queue nor the readable bit is disturbed. -/
theorem c6_cancel_no_effect (t1 t2 t3 : List Action) (s1 : Sys)
    (h1 : run Sys.init t1 = some s1) (hidle : s1.phase = CPhase.idle)
    (hp : ∀ a ∈ t2, IsProducer a) :
    run Sys.init (t1 ++ Action.startWait :: (t2 ++ Action.cancelWait :: t3)) =
      run Sys.init (t1 ++ (t2 ++ t3)) := by
  rw [run_append, run_append, h1]
  show run s1 (Action.startWait :: (t2 ++ Action.cancelWait :: t3)) =
    run s1 (t2 ++ t3)
  have hsw : stepFn s1 Action.startWait =
      some (withPhase s1
        (if Signal.satisfies s1.port.signal Signal.READABLE then CPhase.woken
         else CPhase.waiting)) := by
    simp [stepFn, hidle, withPhase]
  simp only [run, hsw]
  exact run_start_cancel s1 _ t2 t3
    (by by_cases hs : Signal.satisfies s1.port.signal Signal.READABLE <;> simp [hs])
    hp hidle

/-- Witness for C6: a wait is started on a fresh port, a full push of
`pkt1` happens while it is pending, the wait is abandoned, and a fresh
`wait_async` then runs — with the same outcome as if the abandoned wait
had never been started. -/
theorem c6_cancel_no_effect_witness :
    run Sys.init
        ([] ++ Action.startWait ::
          ([Action.append pkt1, Action.setReadable] ++
            Action.cancelWait :: [Action.startWait, Action.commitDrain])) =
      run Sys.init
        ([] ++ ([Action.append pkt1, Action.setReadable] ++
          [Action.startWait, Action.commitDrain])) :=
  c6_cancel_no_effect [] [Action.append pkt1, Action.setReadable]
    [Action.startWait, Action.commitDrain] Sys.init rfl rfl (by decide)

/-- C7: `Port::new` always succeeds and returns a port with an empty
queue and the READABLE bit clear, and `Port::push` always succeeds — it
is a total function on every port state and packet, has no return
value, and its queue effect is exactly appending the packet.  Neither
operation has a failure mode at this layer (queue growth is unbounded;
the embedding, like the source, has no error path). -/
theorem c7_new_push_infallible :
    Port.new.queue = [] ∧
      Signal.satisfies Port.new.signal Signal.READABLE = false ∧
      ∀ (s : PortState) (p : PortPacket),
        (Port.push s p).queue = s.queue ++ [p] := by
  refine ⟨rfl, by decide, ?_⟩
  intro s p
  rfl

/-- C8: packet keys need not be unique.  For every key `k` and any two
packets carrying that same key, both are enqueued by `Port::push` and
both are delivered by one drain, unmerged and undeduplicated, in push
order; the result holds uniformly in `k` (and in the statuses and
payloads), since no port operation inspects the key. -/
theorem c8_duplicate_keys_delivered (k : Nat) (a b : ZxError)
    (d e : PortPacketPayload) :
    (Port.wait_async
        (Port.push (Port.push Port.new
          { key := k, status := a, data := d })
          { key := k, status := b, data := e })).1 =
      [{ key := k, status := a, data := d },
       { key := k, status := b, data := e }] := rfl

/-- C9 (implicit): `Port::push` calls `signal_set(Signal::READABLE)`
unconditionally on every call — for every prior state `s`, including
states whose queue is already non-empty, the resulting signal word is
`s.signal` with READABLE ORed in, and READABLE is set afterwards. -/
theorem c9_push_signals_unconditionally (s : PortState) (p : PortPacket) :
    (Port.push s p).signal = Signal.set s.signal Signal.READABLE ∧
      Signal.satisfies (Port.push s p).signal Signal.READABLE = true :=
  ⟨rfl, satisfies_set_readable s.signal⟩

/-- C10: `Port::len` returns the current queue length and is
side-effect-free: for every port state the state component of its
result is the input state itself, so the queue contents and the
readable bit are unchanged (and the embedding of `len`, like the
source, contains no suspension point). -/
theorem c10_len_diagnostic (s : PortState) :
    (Port.len s).1 = s.queue.length ∧ (Port.len s).2 = s := ⟨rfl, rfl⟩
